import Mathlib

/-!
Shallow embedding of the block-inserter menu logic from
`editor/components/inserter/menu.js`.

The embedded functions are `searchBlocks`, `isDisabledBlock`,
`getBlockTypes`, `getBlocksForTab`, `sortBlocks` and `groupByCategory`.
JavaScript strings are modelled as Lean `String`; the JS string helpers
(`toLowerCase`, `trim`, `indexOf`) are modelled explicitly below on the
underlying character list, matching JS semantics character-wise.
-/

open List

namespace Inserter

/-- A catalog item (block type).  Fields are the ones the embedded logic
reads: `name`, `title`, `category`, `keywords`, `useOnce`, `isPrivate`.
The opaque `initialAttributes` mapping is never inspected by the embedded
functions and is omitted. -/
structure Block where
  name : String
  title : String
  category : String
  keywords : List String
  useOnce : Bool
  isPrivate : Bool
deriving DecidableEq

/-- A category as returned by `getCategories()`: a slug and a display
title, ordered by their position in the registry list. -/
structure Category where
  slug : String
  title : String
deriving DecidableEq

/-- Models JS `s.toLowerCase()`: character-wise lowering. -/
def jsToLower (s : String) : String := ⟨s.data.map Char.toLower⟩

/-- Models JS `s.trim()`: strip whitespace from both ends. -/
def jsTrim (s : String) : String :=
  ⟨((s.data.dropWhile Char.isWhitespace).reverse.dropWhile Char.isWhitespace).reverse⟩

/-- Models JS `hay.indexOf(needle) !== -1`: `needle` occurs as a
contiguous substring of `hay` (always true for the empty needle). -/
def jsIncludes (hay needle : String) : Bool := decide (needle.data <:+: hay.data)

/-- The inner closure `matchSearch` of `searchBlocks`:
`( string ) => string.toLowerCase().indexOf( normalizedSearchTerm ) !== -1`. -/
def matchSearch (normalizedSearchTerm : String) (s : String) : Bool :=
  jsIncludes (jsToLower s) normalizedSearchTerm

/-- `searchBlocks( blocks, searchTerm )` from menu.js, lines 43-50:
lower-case and trim the search term, keep the blocks whose lower-cased
title or one of whose lower-cased keywords contains it. -/
def searchBlocks (blocks : List Block) (searchTerm : String) : List Block :=
  let normalizedSearchTerm := jsTrim (jsToLower searchTerm)
  blocks.filter fun block =>
    matchSearch normalizedSearchTerm block.title ||
      block.keywords.any (matchSearch normalizedSearchTerm)

/-- `isDisabledBlock( blockType )` from menu.js, lines 100-102, with the
component's `this.props.blocks` (the blocks currently placed in the
document) passed explicitly.  The JS expression
`blockType.useOnce && find( blocks, ... )` is truthy exactly when
`useOnce` holds and `find` locates a block with the same name. -/
def isDisabledBlock (blocks : List Block) (blockType : Block) : Bool :=
  blockType.useOnce && (blocks.find? fun b => blockType.name == b.name).isSome

/-- `getBlockTypes()` from menu.js, lines 171-176: the static block types
followed by the reusable block types. -/
def getBlockTypes (staticBlockTypes reusableBlockTypes : List Block) : List Block :=
  staticBlockTypes ++ reusableBlockTypes

/-- `getBlocksForTab( tab )` from menu.js, lines 182-209, with the
component state (`blockTypes` from `getBlockTypes()`,
`recentlyUsedBlocks` from the store, `filterValue` from local state)
passed explicitly.  A non-empty `filterValue` is truthy in JS and short
circuits to the whole catalog.  For an unrecognized tab the switch falls
through leaving `predicate` undefined, and lodash `filter` with an
undefined predicate uses the identity iteratee, keeping every (truthy)
object: modelled as filtering with the constantly-true predicate. -/
def getBlocksForTab (blockTypes recentlyUsedBlocks : List Block)
    (filterValue : String) (tab : String) : List Block :=
  if filterValue ≠ "" then blockTypes
  else match tab with
    | "recent" =>
        recentlyUsedBlocks.filter fun r => (blockTypes.find? fun b => b.name == r.name).isSome
    | "blocks" =>
        blockTypes.filter fun b => b.category != "embed" && b.category != "reusable-blocks"
    | "embeds" => blockTypes.filter fun b => b.category == "embed"
    | "saved" => blockTypes.filter fun b => b.category == "reusable-blocks"
    | _ => blockTypes.filter fun _ => true

/-- Models lodash `findIndex`: index of the first element satisfying
`p`, or `-1` when there is none. -/
def findIndexJS (p : α → Bool) (l : List α) : Int :=
  match l.findIdx? p with
  | some i => (i : Int)
  | none => -1

/-- The iteratee `getCategoryIndex` from menu.js, lines 216-218:
`findIndex( getCategories(), ( category ) => category.slug === item.category )`. -/
def getCategoryIndex (categories : List Category) (item : Block) : Int :=
  findIndexJS (fun category => category.slug == item.category) categories

/-- One insertion step of a stable ascending insertion sort by an integer
key: `x` goes in front of the first element whose key is not smaller. -/
def insertByKey (key : α → Int) (x : α) : List α → List α
  | [] => [x]
  | y :: ys => if key x ≤ key y then x :: y :: ys else y :: insertByKey key x ys

/-- Models lodash `sortBy`: a stable ascending sort by the iteratee.
A stable sort by a given key is unique, so this insertion sort agrees
with lodash's implementation on every input. -/
def sortByKey (key : α → Int) : List α → List α
  | [] => []
  | x :: xs => insertByKey key x (sortByKey key xs)

/-- `sortBlocks( blockTypes )` from menu.js, lines 211-221, with the
component state (`tab`, `filterValue`) and the registry category list
passed explicitly. -/
def sortBlocks (categories : List Category) (tab filterValue : String)
    (blockTypes : List Block) : List Block :=
  if tab == "recent" && filterValue == "" then blockTypes
  else sortByKey (getCategoryIndex categories) blockTypes

/-- Helper for `firstUniques`: the elements of the list not in `seen`,
keeping the first occurrence of each value only. -/
def firstUniquesAux (seen : List String) : List String → List String
  | [] => []
  | x :: xs =>
      if x ∈ seen then firstUniquesAux seen xs
      else x :: firstUniquesAux (x :: seen) xs

/-- The distinct values of a list of strings, in order of first
appearance (JS object keys of a lodash `groupBy` result appear in
insertion order for non-numeric string keys). -/
def firstUniques (l : List String) : List String := firstUniquesAux [] l

/-- `groupByCategory( blockTypes )` from menu.js, lines 223-225: lodash
`groupBy` by `blockType.category`, as an association list from category
value (in order of first appearance) to the sub-list of blocks with that
category, in input order. -/
def groupByCategory (blockTypes : List Block) : List (String × List Block) :=
  (firstUniques (blockTypes.map fun b => b.category)).map
    fun k => (k, blockTypes.filter fun b => b.category == k)

/-! Concrete blocks and categories used by witnesses and counterexamples. -/

/-- A block whose category appears in `exCategories`. -/
def exKnown : Block :=
  { name := "core/paragraph", title := "Paragraph", category := "text",
    keywords := ["content"], useOnce := false, isPrivate := false }

/-- A block whose category does not appear in `exCategories`. -/
def exUnknown : Block :=
  { name := "core/unknown", title := "Unknown", category := "widgets",
    keywords := [], useOnce := false, isPrivate := false }

/-- A one-element registry category list. -/
def exCategories : List Category := [{ slug := "text", title := "Text" }]

/-! Helper lemmas. -/

/-- Two booleans are equal when their truth is equivalent. -/
theorem bool_eq_of_iff {a b : Bool} (h : a = true ↔ b = true) : a = b := by
  cases a <;> cases b <;> simp_all

/-- The empty needle occurs in every string (JS `indexOf("")` is `0`). -/
theorem jsIncludes_empty_needle (hay : String) : jsIncludes hay "" = true :=
  decide_eq_true ⟨[], hay.data, rfl⟩

/-- A search term that normalizes to the empty string keeps every block. -/
theorem searchBlocks_of_trim_empty (C : List Block) (t : String)
    (ht : jsTrim (jsToLower t) = "") : searchBlocks C t = C := by
  simp only [searchBlocks, ht]
  apply List.filter_eq_self.mpr
  intro a _
  simp [matchSearch, jsIncludes_empty_needle]

/-- C1: `searchBlocks` returns a sub-list (hence a subset) of its input,
and a block of the input is kept exactly when the trimmed, lower-cased
search string occurs in the block's lower-cased title or in at least one
of its lower-cased keywords. -/
theorem searchBlocks_characterization (C : List Block) (s : String) :
    searchBlocks C s <+ C ∧
      ∀ b, b ∈ searchBlocks C s ↔ b ∈ C ∧
        ((jsTrim (jsToLower s)).data <:+: (jsToLower b.title).data ∨
          ∃ kw ∈ b.keywords, (jsTrim (jsToLower s)).data <:+: (jsToLower kw).data) := by
  constructor
  · exact List.filter_sublist C
  · intro b
    simp only [searchBlocks, List.mem_filter, matchSearch, jsIncludes,
      Bool.or_eq_true, decide_eq_true_eq, List.any_eq_true]

/-- C6: searching with the empty string, or with any string that trims
to the empty string, returns the catalog unchanged. -/
theorem searchBlocks_empty_returns_all (C : List Block) (s : String)
    (h : jsTrim (jsToLower s) = "") :
    searchBlocks C "" = C ∧ searchBlocks C s = C :=
  ⟨searchBlocks_of_trim_empty C "" rfl, searchBlocks_of_trim_empty C s h⟩

/-- Witness for C6 at a whitespace-only search string. -/
theorem searchBlocks_empty_returns_all_witness :
    searchBlocks [exKnown] "  " = [exKnown] :=
  (searchBlocks_empty_returns_all [exKnown] "  " (by decide)).2

/-- C7: a block is disabled exactly when it is use-once and a block with
the same name is already placed in the document.  `isDisabledBlock`
reads neither the active tab nor the search text, so the equivalence is
independent of both. -/
theorem isDisabledBlock_iff (P : List Block) (b : Block) :
    isDisabledBlock P b = true ↔ b.useOnce = true ∧ ∃ p ∈ P, p.name = b.name := by
  simp only [isDisabledBlock, Bool.and_eq_true, List.find?_isSome, beq_iff_eq]
  constructor
  · rintro ⟨h1, x, hx, hxe⟩
    exact ⟨h1, x, hx, hxe.symm⟩
  · rintro ⟨h1, x, hx, hxe⟩
    exact ⟨h1, x, hx, hxe.symm⟩

/-- C4: with a non-empty search text, tab selection is bypassed and the
full catalog (static followed by reusable block types) is returned,
whatever tab is active. -/
theorem getBlocksForTab_search_bypasses_tabs
    (staticBlockTypes reusableBlockTypes recentlyUsedBlocks : List Block)
    (filterValue tab : String) (h : filterValue ≠ "") :
    getBlocksForTab (getBlockTypes staticBlockTypes reusableBlockTypes)
        recentlyUsedBlocks filterValue tab
      = getBlockTypes staticBlockTypes reusableBlockTypes := by
  unfold getBlocksForTab
  rw [if_pos h]

/-- Witness for C4 at a concrete non-empty search text and tab. -/
theorem getBlocksForTab_search_bypasses_tabs_witness :
    getBlocksForTab (getBlockTypes [exKnown] [exUnknown]) [] "img" "saved"
      = getBlockTypes [exKnown] [exUnknown] :=
  getBlocksForTab_search_bypasses_tabs [exKnown] [exUnknown] [] "img" "saved" (by decide)

/-- C2: with empty search text, the three category tabs partition the
catalog by category, each keeping its blocks in input order (the result
is a `filter` of the catalog). -/
theorem getBlocksForTab_partitions (blockTypes recentlyUsedBlocks : List Block) :
    getBlocksForTab blockTypes recentlyUsedBlocks "" "blocks"
        = blockTypes.filter
            (fun b => decide (b.category ≠ "embed" ∧ b.category ≠ "reusable-blocks")) ∧
      getBlocksForTab blockTypes recentlyUsedBlocks "" "embeds"
        = blockTypes.filter (fun b => decide (b.category = "embed")) ∧
      getBlocksForTab blockTypes recentlyUsedBlocks "" "saved"
        = blockTypes.filter (fun b => decide (b.category = "reusable-blocks")) := by
  refine ⟨?_, ?_, ?_⟩ <;>
    · unfold getBlocksForTab
      rw [if_neg (by simp)]
      exact List.filter_congr fun b _ => bool_eq_of_iff (by simp)

/-- C3: with empty search text, the recent tab keeps exactly the usage
record entries whose name occurs in the catalog, in usage-record order
(the result is a `filter`, hence a sub-list, of the usage record). -/
theorem getBlocksForTab_recent_spec (blockTypes recentlyUsedBlocks : List Block) :
    getBlocksForTab blockTypes recentlyUsedBlocks "" "recent"
        = recentlyUsedBlocks.filter
            (fun r => decide (∃ b ∈ blockTypes, b.name = r.name)) ∧
      getBlocksForTab blockTypes recentlyUsedBlocks "" "recent" <+ recentlyUsedBlocks := by
  have h : getBlocksForTab blockTypes recentlyUsedBlocks "" "recent"
      = recentlyUsedBlocks.filter
          (fun r => decide (∃ b ∈ blockTypes, b.name = r.name)) := by
    unfold getBlocksForTab
    rw [if_neg (by simp)]
    exact List.filter_congr fun r _ => bool_eq_of_iff (by simp [List.find?_isSome])
  exact ⟨h, h ▸ List.filter_sublist recentlyUsedBlocks⟩

/-- C10: with empty search text and a tab outside the four known values,
the switch falls through, `filter` runs with an undefined predicate
(identity iteratee over always-truthy objects), and the whole catalog is
returned unchanged. -/
theorem getBlocksForTab_unknown_tab (blockTypes recentlyUsedBlocks : List Block)
    (tab : String) (h1 : tab ≠ "recent") (h2 : tab ≠ "blocks")
    (h3 : tab ≠ "embeds") (h4 : tab ≠ "saved") :
    getBlocksForTab blockTypes recentlyUsedBlocks "" tab = blockTypes := by
  unfold getBlocksForTab
  rw [if_neg (by simp)]
  split
  all_goals first
    | exact absurd rfl h1
    | exact absurd rfl h2
    | exact absurd rfl h3
    | exact absurd rfl h4
    | simp

/-- Witness for C10 at a concrete unrecognized tab value. -/
theorem getBlocksForTab_unknown_tab_witness :
    getBlocksForTab [exKnown] [] "" "widgets" = [exKnown] :=
  getBlocksForTab_unknown_tab [exKnown] [] "widgets"
    (by decide) (by decide) (by decide) (by decide)

/-! Lemmas about the stable insertion sort modelling lodash `sortBy`. -/

/-- Inserting permutes: the result holds the new element and the old ones. -/
theorem insertByKey_perm (key : α → Int) (x : α) (l : List α) :
    insertByKey key x l ~ x :: l := by
  induction l with
  | nil => exact List.Perm.refl _
  | cons y ys ih =>
    rw [insertByKey]
    by_cases hxy : key x ≤ key y
    · rw [if_pos hxy]
    · rw [if_neg hxy]
      exact (ih.cons y).trans (List.Perm.swap x y ys)

/-- Inserting into a key-sorted list keeps it key-sorted. -/
theorem insertByKey_pairwise (key : α → Int) (x : α) (l : List α)
    (h : l.Pairwise fun a b => key a ≤ key b) :
    (insertByKey key x l).Pairwise fun a b => key a ≤ key b := by
  induction l with
  | nil => simp [insertByKey]
  | cons y ys ih =>
    rcases List.pairwise_cons.mp h with ⟨hy, hys⟩
    rw [insertByKey]
    by_cases hxy : key x ≤ key y
    · rw [if_pos hxy]
      refine List.pairwise_cons.mpr ⟨?_, h⟩
      intro b hb
      rcases List.mem_cons.mp hb with rfl | hb2
      · exact hxy
      · exact le_trans hxy (hy b hb2)
    · rw [if_neg hxy]
      refine List.pairwise_cons.mpr ⟨?_, ih hys⟩
      intro b hb
      rcases List.mem_cons.mp ((insertByKey_perm key x ys).mem_iff.mp hb) with rfl | hb2
      · exact le_of_lt (not_le.mp hxy)
      · exact hy b hb2

/-- The sort permutes its input. -/
theorem sortByKey_perm (key : α → Int) (l : List α) : sortByKey key l ~ l := by
  induction l with
  | nil => exact List.Perm.refl _
  | cons x xs ih => exact (insertByKey_perm key x (sortByKey key xs)).trans (ih.cons x)

/-- The sort output is ascending in the key. -/
theorem sortByKey_pairwise (key : α → Int) (l : List α) :
    (sortByKey key l).Pairwise fun a b => key a ≤ key b := by
  induction l with
  | nil => exact List.Pairwise.nil
  | cons x xs ih => exact insertByKey_pairwise key x _ ih

/-- Insertion is invisible to a fixed-key filter: stability at one step. -/
theorem insertByKey_filter_key (key : α → Int) (k : Int) (x : α) (l : List α) :
    (insertByKey key x l).filter (fun a => decide (key a = k))
      = (x :: l).filter fun a => decide (key a = k) := by
  induction l with
  | nil => rfl
  | cons y ys ih =>
    rw [insertByKey]
    by_cases hxy : key x ≤ key y
    · rw [if_pos hxy]
    · rw [if_neg hxy]
      have hlt : key y < key x := not_le.mp hxy
      by_cases hy : key y = k <;> by_cases hx : key x = k
      · exact absurd hlt (by rw [hy, hx]; exact lt_irrefl k)
      · simp [List.filter_cons, hy, hx, ih]
      · simp [List.filter_cons, hy, hx, ih]
      · simp [List.filter_cons, hy, hx, ih]

/-- Stability of the sort: for each key value, the sub-sequence of
elements carrying that key is unchanged. -/
theorem sortByKey_filter_key (key : α → Int) (k : Int) (l : List α) :
    (sortByKey key l).filter (fun a => decide (key a = k))
      = l.filter fun a => decide (key a = k) := by
  induction l with
  | nil => rfl
  | cons x xs ih =>
    rw [sortByKey, insertByKey_filter_key, List.filter_cons, List.filter_cons, ih]

/-- C8: `sortBlocks` is stable.  For every category-ordering index `k`,
the sub-sequence of blocks whose category maps to `k` (including blocks
sharing one category, and the not-found index) is exactly the same, in
the same order, before and after sorting — whatever the tab and search
state. -/
theorem sortBlocks_stable (categories : List Category) (tab filterValue : String)
    (blockTypes : List Block) (k : Int) :
    (sortBlocks categories tab filterValue blockTypes).filter
        (fun b => decide (getCategoryIndex categories b = k))
      = blockTypes.filter fun b => decide (getCategoryIndex categories b = k) := by
  unfold sortBlocks
  split
  · rfl
  · exact sortByKey_filter_key _ k blockTypes

/-! Lemmas about the lodash `findIndex` model. -/

/-- Equation for `findIndexJS` when the search fails. -/
theorem findIndexJS_eq_of_none (p : α → Bool) (l : List α)
    (hf : l.findIdx? p = none) : findIndexJS p l = -1 := by
  unfold findIndexJS
  rw [hf]

/-- Equation for `findIndexJS` when the search succeeds. -/
theorem findIndexJS_eq_of_some (p : α → Bool) (l : List α) (i : Nat)
    (hf : l.findIdx? p = some i) : findIndexJS p l = (i : Int) := by
  unfold findIndexJS
  rw [hf]

/-- `findIndexJS` never returns anything below the sentinel `-1`. -/
theorem neg_one_le_findIndexJS (p : α → Bool) (l : List α) : -1 ≤ findIndexJS p l := by
  cases hf : l.findIdx? p with
  | none =>
    rw [findIndexJS_eq_of_none p l hf]
  | some i =>
    rw [findIndexJS_eq_of_some p l i hf]
    omega

/-- `findIndexJS` returns the sentinel `-1` exactly when no element
satisfies the predicate. -/
theorem findIndexJS_eq_neg_one_iff (p : α → Bool) (l : List α) :
    findIndexJS p l = -1 ↔ ∀ x ∈ l, p x = false := by
  cases hf : l.findIdx? p with
  | none =>
    rw [findIndexJS_eq_of_none p l hf]
    simp only [List.findIdx?_eq_none_iff] at hf
    exact iff_of_true rfl hf
  | some i =>
    rw [findIndexJS_eq_of_some p l i hf]
    constructor
    · intro h
      exact absurd h (by omega)
    · intro hall
      have hn : l.findIdx? p = none := List.findIdx?_eq_none_iff.mpr hall
      rw [hn] at hf
      exact absurd hf (by simp)

/-- When some element satisfies the predicate, `findIndexJS` is a real
(non-negative) index. -/
theorem findIndexJS_nonneg (p : α → Bool) (l : List α) (h : ∃ x ∈ l, p x = true) :
    0 ≤ findIndexJS p l := by
  rw [findIndexJS_eq_of_some p l (l.findIdx p)
    (List.findIdx?_eq_some_of_exists (by simpa using h))]
  omega

/-- A block's category index is the sentinel `-1` exactly when its
category is the slug of no registry category. -/
theorem getCategoryIndex_eq_neg_one_iff (categories : List Category) (b : Block) :
    getCategoryIndex categories b = -1 ↔ ∀ c ∈ categories, c.slug ≠ b.category := by
  unfold getCategoryIndex
  rw [findIndexJS_eq_neg_one_iff]
  simp

/-- Counterexample to C5 as stated: with category ordering
`exCategories` (just `text`), sorting `[exKnown, exUnknown]` outside the
recent tab puts `exUnknown` — whose category `widgets` is not in the
ordering and therefore gets index `-1` — first, not last. -/
theorem sortBlocks_unknown_category_sorts_first :
    sortBlocks exCategories "blocks" "" [exKnown, exUnknown] = [exUnknown, exKnown] ∧
      (sortBlocks exCategories "blocks" "" [exKnown, exUnknown]).getLast?
        ≠ some exUnknown ∧
      getCategoryIndex exCategories exUnknown = -1 ∧
      getCategoryIndex exCategories exKnown = 0 :=
  ⟨by decide, by decide, by decide, by decide⟩

/-- C5 amended: with tab `recent` and empty search text the input order
is preserved unchanged; otherwise the blocks are stable-sorted ascending
by the index of their category in the externally supplied category
ordering, and a block whose category does not appear there gets the
lodash `findIndex` sentinel `-1`, hence sorts first (never after a block
with a known category). -/
theorem sortBlocks_amended (categories : List Category) (tab filterValue : String)
    (blockTypes : List Block) (h : ¬(tab = "recent" ∧ filterValue = "")) :
    sortBlocks categories "recent" "" blockTypes = blockTypes ∧
      sortBlocks categories tab filterValue blockTypes ~ blockTypes ∧
      (sortBlocks categories tab filterValue blockTypes).Pairwise
        (fun a b => getCategoryIndex categories a ≤ getCategoryIndex categories b) ∧
      (∀ b : Block, (∀ c ∈ categories, c.slug ≠ b.category) →
        getCategoryIndex categories b = -1) ∧
      (sortBlocks categories tab filterValue blockTypes).Pairwise
        fun a b => getCategoryIndex categories b = -1 →
          getCategoryIndex categories a = -1 := by
  have hcond : ¬((tab == "recent" && filterValue == "") = true) := by
    simpa [Bool.and_eq_true, beq_iff_eq] using h
  have heq : sortBlocks categories tab filterValue blockTypes
      = sortByKey (getCategoryIndex categories) blockTypes := by
    unfold sortBlocks
    rw [if_neg hcond]
  refine ⟨?_, ?_, ?_, ?_, ?_⟩
  · unfold sortBlocks
    simp
  · rw [heq]
    exact sortByKey_perm _ _
  · rw [heq]
    exact sortByKey_pairwise _ _
  · intro b hb
    exact (getCategoryIndex_eq_neg_one_iff categories b).mpr hb
  · rw [heq]
    exact (sortByKey_pairwise _ _).imp fun {a b} hle hb => by
      have hge := neg_one_le_findIndexJS
        (fun category => category.slug == a.category) categories
      unfold getCategoryIndex at hle hb ⊢
      omega

/-- Witness for the amended C5 at concrete inputs. -/
theorem sortBlocks_amended_witness :
    sortBlocks exCategories "recent" "" [exKnown, exUnknown] = [exKnown, exUnknown] ∧
      sortBlocks exCategories "blocks" "" [exKnown, exUnknown] ~ [exKnown, exUnknown] :=
  have h := sortBlocks_amended exCategories "blocks" "" [exKnown, exUnknown] (by decide)
  ⟨h.1, h.2.1⟩

/-! Lemmas about grouping. -/

/-- Membership in `firstUniquesAux`: an element is kept when it occurs
in the list and is not already seen. -/
theorem mem_firstUniquesAux (l : List String) (seen : List String) (a : String) :
    a ∈ firstUniquesAux seen l ↔ a ∈ l ∧ a ∉ seen := by
  induction l generalizing seen with
  | nil => simp [firstUniquesAux]
  | cons x xs ih =>
    rw [firstUniquesAux]
    by_cases hx : x ∈ seen
    · rw [if_pos hx, ih]
      simp only [List.mem_cons]
      constructor
      · rintro ⟨ha, hs⟩
        exact ⟨Or.inr ha, hs⟩
      · rintro ⟨ha | ha, hs⟩
        · exact absurd (ha ▸ hx) hs
        · exact ⟨ha, hs⟩
    · rw [if_neg hx]
      simp only [List.mem_cons, ih (x :: seen)]
      constructor
      · rintro (rfl | ⟨ha, hs⟩)
        · exact ⟨Or.inl rfl, hx⟩
        · exact ⟨Or.inr ha, fun hmem => hs (Or.inr hmem)⟩
      · rintro ⟨rfl | ha, hs⟩
        · exact Or.inl rfl
        · by_cases hax : a = x
          · exact Or.inl hax
          · exact Or.inr ⟨ha, by simp [List.mem_cons, hax, hs]⟩

/-- `firstUniquesAux` never repeats a value. -/
theorem nodup_firstUniquesAux (l : List String) (seen : List String) :
    (firstUniquesAux seen l).Nodup := by
  induction l generalizing seen with
  | nil => simp [firstUniquesAux]
  | cons x xs ih =>
    rw [firstUniquesAux]
    by_cases hx : x ∈ seen
    · rw [if_pos hx]
      exact ih seen
    · rw [if_neg hx]
      refine List.nodup_cons.mpr ⟨?_, ih (x :: seen)⟩
      intro hmem
      exact ((mem_firstUniquesAux xs (x :: seen) x).mp hmem).2 (List.mem_cons_self x seen)

/-- Flattening category-keyed filters over a duplicate-free, complete
key list is a permutation of the filtered input. -/
theorem flatten_filters_perm (l : List Block) (ks : List String) (hnd : ks.Nodup) :
    (ks.map fun k => l.filter fun b => b.category == k).flatten
      ~ l.filter fun b => decide (b.category ∈ ks) := by
  induction ks with
  | nil => simp
  | cons k ks ih =>
    rcases List.nodup_cons.mp hnd with ⟨hk, hnd2⟩
    rw [List.map_cons, List.flatten_cons]
    have hsplit := List.filter_append_perm (fun b => b.category == k)
      (l.filter fun b => decide (b.category ∈ k :: ks))
    rw [List.filter_filter, List.filter_filter] at hsplit
    have e1 : (l.filter fun a => (a.category == k) && decide (a.category ∈ k :: ks))
        = l.filter fun b => b.category == k := by
      apply List.filter_congr
      intro b _
      by_cases hb : b.category = k <;> simp [hb]
    have e2 : (l.filter fun a => (!(a.category == k)) && decide (a.category ∈ k :: ks))
        = l.filter fun b => decide (b.category ∈ ks) := by
      apply List.filter_congr
      intro b _
      by_cases hb : b.category = k <;> simp [hb, hk]
    rw [e1, e2] at hsplit
    exact (List.Perm.append_left _ (ih hnd2)).trans hsplit

/-- C9: flattening the groups of `groupByCategory` gives back exactly
the input blocks as a multiset, each group is a sub-list of the input
(so the post-sort order survives within every group), and every block
in a group carries that group's category. -/
theorem groupByCategory_partition (l : List Block) :
    ((groupByCategory l).map Prod.snd).flatten ~ l ∧
      ∀ g ∈ groupByCategory l, g.2 <+ l ∧ ∀ b ∈ g.2, b.category = g.1 := by
  constructor
  · have hmap : (groupByCategory l).map Prod.snd
        = (firstUniques (l.map fun b => b.category)).map
            fun k => l.filter fun b => b.category == k := by
      unfold groupByCategory
      rw [List.map_map]
      rfl
    rw [hmap]
    have hperm := flatten_filters_perm l (firstUniques (l.map fun b => b.category))
      (nodup_firstUniquesAux _ _)
    have hself : (l.filter fun b =>
        decide (b.category ∈ firstUniques (l.map fun bb => bb.category))) = l := by
      apply List.filter_eq_self.mpr
      intro b hb
      simp only [decide_eq_true_eq]
      exact (mem_firstUniquesAux _ _ _).mpr
        ⟨List.mem_map_of_mem (fun bb => bb.category) hb, List.not_mem_nil _⟩
    rw [hself] at hperm
    exact hperm
  · intro g hg
    unfold groupByCategory at hg
    rcases List.mem_map.mp hg with ⟨k, _, rfl⟩
    refine ⟨List.filter_sublist l, ?_⟩
    intro b hb
    have := (List.mem_filter.mp hb).2
    simpa using this

/-- Witness for C9 at a concrete block list with a repeated category. -/
theorem groupByCategory_partition_witness :
    ((groupByCategory [exKnown, exUnknown, exKnown]).map Prod.snd).flatten
      ~ [exKnown, exUnknown, exKnown] :=
  (groupByCategory_partition [exKnown, exUnknown, exKnown]).1

end Inserter
